import Mathlib

/-!
# Verification of the staged-scan pipeline's record reader and target-list builders

Shallow embedding of `src/index.js`: the chunked fixed-width (6-byte) record
reader and the deduplicating include-list builders `buildInclude24s` (subnet
mode, key width 3) and `buildIncludeIps` (host mode, key width 4), together
with the promise/event semantics of the builders and the sequential pipeline
of `main`.

Bytes of the binary result log are modelled as `Nat` (a Node `Buffer` byte is
always in `0..255`; where a theorem needs that range it is stated explicitly).
A file is a `List Nat`; a chunking of a file is a `List (List Nat)` whose
concatenation is the file, mirroring how `fs.createReadStream` delivers the
file as a sequence of arbitrary, nonempty `data` chunks.
-/

namespace ScanPipeline

/-! ## Hex keys: `Buffer.subarray(i, i+K).toString('hex')` -/

/-- Lowercase hex digit for a nibble, as produced by Node's
`Buffer.toString('hex')`. -/
def hexChar (n : Nat) : Char :=
  match n with
  | 0 => '0' | 1 => '1' | 2 => '2' | 3 => '3'
  | 4 => '4' | 5 => '5' | 6 => '6' | 7 => '7'
  | 8 => '8' | 9 => '9' | 10 => 'a' | 11 => 'b'
  | 12 => 'c' | 13 => 'd' | 14 => 'e' | _ => 'f'

/-- Two-hex-digit encoding of one byte (high nibble first). -/
def byteToHex (b : Nat) : String :=
  String.mk [hexChar (b / 16 % 16), hexChar (b % 16)]

/-- `Buffer.toString('hex')` on a byte sequence. -/
def bytesToHex (l : List Nat) : String :=
  String.join (l.map byteToHex)

/-! ## Record framing

The builders' `data` handler walks the (remainder-prepended) chunk with
`for (let i = 0; i < Math.floor(chunk.length / 6) * 6; i += 6)`, i.e. it
consumes the complete 6-byte records in order; the new remainder is
`chunk.slice(Math.floor(chunk.length / 6) * 6)` when the length is not a
multiple of 6 (and `null`, modelled as `[]`, otherwise). -/

/-- The complete 6-byte records at the front of a buffer, in order:
the slices `buf[6*r .. 6*r+6)` for `r < ⌊buf.length/6⌋` (see
`completeRecords_cons` and `completeRecords_eq_nil` for the take/drop
characterisation matching the loop bound `Math.floor(chunk.length/6)*6`). -/
def completeRecords : List Nat → List (List Nat)
  | a :: b :: c :: d :: e :: f :: rest => [a, b, c, d, e, f] :: completeRecords rest
  | _ => []

/-- The leftover tail after the complete records:
`chunk.slice(Math.floor(chunk.length / 6) * 6)`. -/
def remAfter (buf : List Nat) : List Nat :=
  buf.drop (buf.length / 6 * 6)

/-! ## The deduplicating emit loop (body of the `data` handler) -/

/-- Projection key of a record: `chunk.subarray(i, i+K).toString('hex')`,
the hex string of the first `K` bytes (`K = 3` in `buildInclude24s`,
`K = 4` in `buildIncludeIps`). -/
def keyOf (K : Nat) (r : List Nat) : String :=
  bytesToHex (r.take K)

/-- One iteration of the record loop: compute the key, skip if seen
(`if (seen.has(key)) continue`), otherwise add the key to the seen set and
append the formatted line to the output writes. State is
`(seen keys in insertion order, lines written)`. -/
def emitStep (K : Nat) (fmt : List Nat → String)
    (st : List String × List String) (r : List Nat) : List String × List String :=
  if keyOf K r ∈ st.1 then st else (st.1 ++ [keyOf K r], st.2 ++ [fmt r])

/-- The whole record loop over the complete records of a buffer. -/
def emitAll (K : Nat) (fmt : List Nat → String)
    (st : List String × List String) (recs : List (List Nat)) : List String × List String :=
  recs.foldl (emitStep K fmt) st

/-- Line writer of `buildInclude24s`:
``out.write(`${chunk[i]}.${chunk[i+1]}.${chunk[i+2]}.0/24\n`)``; the record
`r` is the slice `chunk[i .. i+6)`, so `chunk[i+j]` is `r.getD j 0`. -/
def formatLine24 (r : List Nat) : String :=
  toString (r.getD 0 0) ++ "." ++ toString (r.getD 1 0) ++ "." ++
    toString (r.getD 2 0) ++ ".0/24\n"

/-- Line writer of `buildIncludeIps`:
``out.write(`${chunk[i]}.${chunk[i+1]}.${chunk[i+2]}.${chunk[i+3]}\n`)``. -/
def formatLineIp (r : List Nat) : String :=
  toString (r.getD 0 0) ++ "." ++ toString (r.getD 1 0) ++ "." ++
    toString (r.getD 2 0) ++ "." ++ toString (r.getD 3 0) ++ "\n"

/-! ## The stream `data` handler and a whole run over a chunk sequence -/

/-- Builder state carried between `data` events: the `seen` set (keys in
insertion order), the lines written to `includeFile.txt` so far, and the
buffered `remainder`. -/
structure BuildState where
  seen : List String
  out : List String
  remainder : List Nat
  deriving Repr, DecidableEq

/-- State at promise-executor entry: `new Set()`, a freshly truncated output
stream, `remainder = null`. -/
def initState : BuildState := ⟨[], [], []⟩

/-- The `data` handler: prepend the remainder to the incoming chunk
(`if (remainder) chunk = Buffer.concat([remainder, chunk])` — a `null`
remainder is the empty list, and prepending `[]` is the identity), run the
record loop over the complete records, store the new remainder. -/
def handleChunk (K : Nat) (fmt : List Nat → String)
    (st : BuildState) (chunk : List Nat) : BuildState :=
  let buf := st.remainder ++ chunk
  let p := emitAll K fmt (st.seen, st.out) (completeRecords buf)
  ⟨p.1, p.2, remAfter buf⟩

/-- Run a builder over a sequence of `data` chunks, starting from the fresh
state of the promise executor. -/
def runChunks (K : Nat) (fmt : List Nat → String) (chunks : List (List Nat)) : BuildState :=
  chunks.foldl (handleChunk K fmt) initState

/-- Lines that `buildInclude24s` writes to `includeFile.txt` when the result
log arrives as the given chunk sequence (key width 3, CIDR lines). -/
def buildInclude24sLines (chunks : List (List Nat)) : List String :=
  (runChunks 3 formatLine24 chunks).out

/-- Lines that `buildIncludeIps` writes to `includeFile.txt` when the result
log arrives as the given chunk sequence (key width 4, dotted-quad lines). -/
def buildIncludeIpsLines (chunks : List (List Nat)) : List String :=
  (runChunks 4 formatLineIp chunks).out

/-! ## The bare record reader (framing only, no dedup) -/

/-- One `data` event of the record reader: emit the complete records of
remainder-plus-chunk, keep the tail. -/
def readerStep (st : List (List Nat) × List Nat) (chunk : List Nat) :
    List (List Nat) × List Nat :=
  let buf := st.2 ++ chunk
  (st.1 ++ completeRecords buf, remAfter buf)

/-- All records emitted across a chunk sequence. -/
def recordsOfChunks (chunks : List (List Nat)) : List (List Nat) :=
  (chunks.foldl readerStep ([], [])).1

/-! ## Specification devices for the dedup loop -/

/-- The records that survive deduplication when the seen set already holds
`acc`: the first record of each key not in `acc`, in first-appearance order.
Used to characterise the emit loop. -/
def dedupByKey (K : Nat) (acc : List String) : List (List Nat) → List (List Nat)
  | [] => []
  | r :: rs =>
    if keyOf K r ∈ acc then dedupByKey K acc rs
    else r :: dedupByKey K (acc ++ [keyOf K r]) rs

/-- Index of the first occurrence of `k` in a list of keys (the length of the
list when `k` does not occur). -/
def firstIdx (k : String) : List String → Nat
  | [] => 0
  | x :: xs => if x = k then 0 else firstIdx k xs + 1

/-! ## File content written through the output stream

`fs.createWriteStream('includeFile.txt')` is called with default flags `'w'`:
the file is truncated at open, so its final content is exactly the
concatenation of the writes of this build, whatever it held before. -/

/-- Final content of a file opened by `fs.createWriteStream`: prior content
survives only under the append flag; the builders use the default (`'w'`,
truncate), i.e. `append = false`. -/
def writeStreamContent (prior : String) (append : Bool) (writes : List String) : String :=
  (if append then prior else "") ++ String.join writes

/-- Content of `includeFile.txt` after `buildInclude24s` runs on a log
delivered as `chunks`, given the file's prior content. -/
def buildInclude24sFile (prior : String) (chunks : List (List Nat)) : String :=
  writeStreamContent prior false (buildInclude24sLines chunks)

/-- Content of `includeFile.txt` after `buildIncludeIps` runs on a log
delivered as `chunks`, given the file's prior content. -/
def buildIncludeIpsFile (prior : String) (chunks : List (List Nat)) : String :=
  writeStreamContent prior false (buildIncludeIpsLines chunks)

/-! ## Promise/event semantics of a builder invocation

Both builders install exactly three handlers: `data`, `end` (→ `resolve`) and
`error` (→ `reject`) — all on the *read* stream. The write stream `out` gets
no `error` handler, so an `error` event on it has no listener, and Node turns
an unhandled `error` event into a thrown (uncaught) exception. -/

/-- An event delivered to the streams of a builder invocation. -/
inductive StreamEvent where
  | data (chunk : List Nat)
  | srcEnd
  | srcError (e : String)
  | dstError (e : String)
  deriving Repr, DecidableEq

/-- How a builder invocation terminates. -/
inductive Outcome where
  | resolved (content : String)
  | rejected (e : String)
  | crashed (e : String)
  deriving Repr, DecidableEq

/-- Settle the builder promise against an event sequence: `data` runs the
handler; `end` resolves with the written file content (`out.end(); resolve()`);
a read-stream `error` rejects; a write-stream `error` has no listener and
crashes the process. `none` = no terminal event arrived. -/
def builderOutcome (K : Nat) (fmt : List Nat → String) :
    BuildState → List StreamEvent → Option Outcome
  | _, [] => none
  | st, .data c :: rest => builderOutcome K fmt (handleChunk K fmt st c) rest
  | st, .srcEnd :: _ => some (.resolved (String.join st.out))
  | _, .srcError e :: _ => some (.rejected e)
  | _, .dstError e :: _ => some (.crashed e)

/-- Did the promise resolve? -/
def isResolved : Option Outcome → Bool
  | some (.resolved _) => true
  | _ => false

/-- Did the promise reject? -/
def isRejected : Option Outcome → Bool
  | some (.rejected _) => true
  | _ => false

/-- `fs.statSync(file).size`: the size for an existing file, a thrown
`ENOENT` otherwise. -/
def statSyncSize (fileExists : Bool) (size : Nat) : Except String Nat :=
  if fileExists then .ok size else .error "ENOENT"

/-- `new Promise(executor)` semantics: an exception thrown synchronously
inside the executor rejects the promise. -/
def promiseExec (body : Except String (Option Outcome)) : Option Outcome :=
  match body with
  | .error e => some (.rejected e)
  | .ok o => o

/-- Events the read stream on `file` delivers: the data chunks followed by
`end` when the file exists, a single `ENOENT` `error` when it does not. -/
def readStreamEvents (fileExists : Bool) (chunks : List (List Nat)) : List StreamEvent :=
  if fileExists then chunks.map .data ++ [.srcEnd] else [.srcError "ENOENT"]

/-- Outcome of `buildInclude24s(file)`: the executor synchronously evaluates
`fs.statSync(file).size` (bound to the otherwise-unused `size`) before any
stream event is processed, then the stream events settle the promise. -/
def buildInclude24sRun (fileExists : Bool) (size : Nat) (chunks : List (List Nat)) :
    Option Outcome :=
  promiseExec (do
    let _ ← statSyncSize fileExists size
    pure (builderOutcome 3 formatLine24 initState (readStreamEvents fileExists chunks)))

/-- Outcome of `buildIncludeIps(file)`: no stat; a missing file surfaces as
the read stream's `error` event. -/
def buildIncludeIpsRun (fileExists : Bool) (chunks : List (List Nat)) : Option Outcome :=
  builderOutcome 4 formatLineIp initState (readStreamEvents fileExists chunks)

/-! ## The pipeline of `main`

`main` awaits `scanDefaultPort()`, `scanNearPorts()`, `scanAllPorts()` and
`pushToGit()` under their configuration flags, then calls `process.exit()`.
Each scan stage is a strict sequence of awaited collaborator calls; a
rejection propagates out of `main`, so nothing after the failing call runs.
`pushToGit` wraps its whole body in `try/catch` and only logs an error. -/

/-- The configuration snapshot fields `main` consults (`config.scanPort`,
`config.scan24s`, `config.scanAllPorts`, `config.git.push`). -/
structure Config where
  scanPort : Bool
  scan24s : Bool
  scanAllPorts : Bool
  gitPush : Bool
  deriving Repr, DecidableEq

/-- The awaited collaborator calls of the pipeline, in source order. -/
inductive Action where
  | masscanPass (n : Nat)
  | minecraftCheckPass (n : Nat)
  | buildList24
  | buildListIps
  | gitPushAct
  | exitProc
  deriving Repr, DecidableEq

/-- Body of `scanDefaultPort` (Stage 1): `masscan` then `minecraftCheck`. -/
def scanDefaultPortActs : List Action :=
  [.masscanPass 1, .minecraftCheckPass 1]

/-- Body of `scanNearPorts` (Stage 2): `buildInclude24s('ips')`, `masscan`,
`minecraftCheck`. -/
def scanNearPortsActs : List Action :=
  [.buildList24, .masscanPass 2, .minecraftCheckPass 2]

/-- Body of `scanAllPorts` (Stage 3): `buildIncludeIps('ips')`, `masscan`,
`minecraftCheck`. -/
def scanAllPortsActs : List Action :=
  [.buildListIps, .masscanPass 3, .minecraftCheckPass 3]

/-- The awaited scan-stage calls `main` makes under a configuration. -/
def scanActs (cfg : Config) : List Action :=
  (if cfg.scanPort then scanDefaultPortActs else []) ++
    (if cfg.scan24s then scanNearPortsActs else []) ++
      (if cfg.scanAllPorts then scanAllPortsActs else [])

/-- Await a list of calls in order until the first rejection, which
propagates. Returns the calls actually made and the result. -/
def runActs (env : Action → Except String Unit) : List Action → List Action × Except String Unit
  | [] => ([], .ok ())
  | a :: rest =>
    match env a with
    | .ok _ => let p := runActs env rest; (a :: p.1, p.2)
    | .error e => ([a], .error e)

/-- `main()` under an environment assigning each collaborator call its result:
the enabled scan stages run in order, failing fast; then, if `config.git.push`,
`pushToGit()` runs with its body's failure caught and swallowed; finally
`process.exit()` (reaching the `Done` state). Returns the calls made and
`main`'s result. -/
def mainRun (cfg : Config) (env : Action → Except String Unit) :
    List Action × Except String Unit :=
  match runActs env (scanActs cfg) with
  | (tr, .error e) => (tr, .error e)
  | (tr, .ok _) =>
    ((if cfg.gitPush then tr ++ [Action.gitPushAct] else tr) ++ [Action.exitProc], .ok ())

end ScanPipeline

namespace ScanPipeline

/-! ## Framing lemmas -/

theorem completeRecords_eq_nil {buf : List Nat} (h : buf.length < 6) :
    completeRecords buf = [] := by
  rcases buf with _ | ⟨a, _ | ⟨b, _ | ⟨c, _ | ⟨d, _ | ⟨e, _ | ⟨f, rest⟩⟩⟩⟩⟩⟩ <;>
    first
      | rfl
      | (exfalso; simp only [List.length_cons] at h; omega)

theorem completeRecords_cons {buf : List Nat} (h : 6 ≤ buf.length) :
    completeRecords buf = buf.take 6 :: completeRecords (buf.drop 6) := by
  rcases buf with _ | ⟨a, _ | ⟨b, _ | ⟨c, _ | ⟨d, _ | ⟨e, _ | ⟨f, rest⟩⟩⟩⟩⟩⟩ <;>
    first
      | (exfalso; simp only [List.length_cons, List.length_nil] at h; omega)
      | rfl

theorem remAfter_eq_self {buf : List Nat} (h : buf.length < 6) : remAfter buf = buf := by
  have h0 : buf.length / 6 = 0 := by omega
  simp [remAfter, h0]

theorem remAfter_length (buf : List Nat) : (remAfter buf).length = buf.length % 6 := by
  simp [remAfter]; omega

theorem remAfter_drop6 {buf : List Nat} (h : 6 ≤ buf.length) :
    remAfter buf = remAfter (buf.drop 6) := by
  simp only [remAfter, List.drop_drop, List.length_drop]
  congr 1
  omega

/-- Streaming decomposition: the complete records of a concatenation are the
complete records of the first part followed by those of its leftover tail
prepended to the second part. -/
theorem completeRecords_append_aux :
    ∀ (n : Nat) (x y : List Nat), x.length ≤ n →
      completeRecords (x ++ y) = completeRecords x ++ completeRecords (remAfter x ++ y) ∧
      remAfter (x ++ y) = remAfter (remAfter x ++ y) := by
  intro n
  induction n with
  | zero =>
    intro x y hx
    have hlt : x.length < 6 := by omega
    rw [completeRecords_eq_nil hlt, remAfter_eq_self hlt]
    simp
  | succ n ih =>
    intro x y hx
    by_cases hlt : x.length < 6
    · rw [completeRecords_eq_nil hlt, remAfter_eq_self hlt]
      simp
    · have h6 : 6 ≤ x.length := by omega
      have h6' : 6 ≤ (x ++ y).length := by simp; omega
      have hdx : (x.drop 6).length ≤ n := by simp; omega
      obtain ⟨ih1, ih2⟩ := ih (x.drop 6) y hdx
      constructor
      · rw [completeRecords_cons h6', completeRecords_cons h6]
        rw [List.take_append_of_le_length h6, List.drop_append_of_le_length h6]
        rw [ih1, remAfter_drop6 h6]
        simp
      · rw [remAfter_drop6 h6', List.drop_append_of_le_length h6]
        rw [ih2, remAfter_drop6 h6]

theorem completeRecords_append (x y : List Nat) :
    completeRecords (x ++ y) = completeRecords x ++ completeRecords (remAfter x ++ y) :=
  (completeRecords_append_aux x.length x y le_rfl).1

theorem remAfter_append (x y : List Nat) :
    remAfter (x ++ y) = remAfter (remAfter x ++ y) :=
  (completeRecords_append_aux x.length x y le_rfl).2

theorem foldl_readerStep (chunks : List (List Nat)) (recs : List (List Nat))
    (rem : List Nat) (hrem : rem.length < 6) :
    chunks.foldl readerStep (recs, rem) =
      (recs ++ completeRecords (rem ++ chunks.flatten), remAfter (rem ++ chunks.flatten)) := by
  induction chunks generalizing recs rem with
  | nil => simp [completeRecords_eq_nil hrem, remAfter_eq_self hrem]
  | cons c cs ih =>
    simp only [List.foldl_cons, readerStep, List.flatten_cons]
    rw [ih _ _ (by rw [remAfter_length]; omega)]
    rw [← List.append_assoc rem c cs.flatten, completeRecords_append (rem ++ c) cs.flatten,
      remAfter_append (rem ++ c) cs.flatten]
    simp

/-- The record reader is chunking-independent: it always emits the complete
records of the whole input. -/
theorem recordsOfChunks_eq (chunks : List (List Nat)) :
    recordsOfChunks chunks = completeRecords chunks.flatten := by
  unfold recordsOfChunks
  rw [foldl_readerStep chunks [] [] (by simp)]
  simp

theorem completeRecords_length_aux :
    ∀ (n : Nat) (buf : List Nat), buf.length ≤ n →
      (completeRecords buf).length = buf.length / 6 := by
  intro n
  induction n with
  | zero =>
    intro buf h
    have hlt : buf.length < 6 := by omega
    rw [completeRecords_eq_nil hlt]
    simp; omega
  | succ n ih =>
    intro buf h
    by_cases hlt : buf.length < 6
    · rw [completeRecords_eq_nil hlt]; simp; omega
    · have h6 : 6 ≤ buf.length := by omega
      rw [completeRecords_cons h6]
      simp only [List.length_cons]
      rw [ih (buf.drop 6) (by simp; omega)]
      simp; omega

theorem completeRecords_length (buf : List Nat) :
    (completeRecords buf).length = buf.length / 6 :=
  completeRecords_length_aux buf.length buf le_rfl

/-- The `r`-th emitted record is the `6`-byte slice of the input at offset
`6*r`: records sit on the 6-byte grid, without overlap. -/
theorem completeRecords_getD :
    ∀ (r : Nat) (buf : List Nat), r < buf.length / 6 →
      (completeRecords buf).getD r [] = (buf.drop (6 * r)).take 6 := by
  intro r
  induction r with
  | zero =>
    intro buf h
    have h6 : 6 ≤ buf.length := by omega
    rw [completeRecords_cons h6]
    simp
  | succ r ih =>
    intro buf h
    have h6 : 6 ≤ buf.length := by omega
    rw [completeRecords_cons h6]
    simp only [List.getD_cons_succ]
    rw [ih (buf.drop 6) (by simp; omega)]
    rw [List.drop_drop]
    congr 2
    omega

end ScanPipeline
namespace ScanPipeline
/-! ## Dedup lemmas -/

theorem emitAll_eq_dedup (K : Nat) (fmt : List Nat → String) (recs : List (List Nat))
    (s o : List String) :
    emitAll K fmt (s, o) recs =
      (s ++ (dedupByKey K s recs).map (keyOf K), o ++ (dedupByKey K s recs).map fmt) := by
  induction recs generalizing s o with
  | nil => simp [emitAll, dedupByKey]
  | cons r rs ih =>
    by_cases h : keyOf K r ∈ s
    · simp only [emitAll, List.foldl_cons, emitStep, if_pos h, dedupByKey]
      exact ih s o
    · simp only [emitAll, List.foldl_cons, emitStep, if_neg h, dedupByKey]
      have hh := ih (s ++ [keyOf K r]) (o ++ [fmt r])
      simp only [emitAll] at hh
      rw [hh]
      simp

theorem emitAll_append (K : Nat) (fmt : List Nat → String) (st : List String × List String)
    (l1 l2 : List (List Nat)) :
    emitAll K fmt st (l1 ++ l2) = emitAll K fmt (emitAll K fmt st l1) l2 := by
  simp [emitAll, List.foldl_append]
end ScanPipeline
namespace ScanPipeline
theorem foldl_handleChunk (K : Nat) (fmt : List Nat → String) (chunks : List (List Nat))
    (s o : List String) (rem : List Nat) (hrem : rem.length < 6) :
    chunks.foldl (handleChunk K fmt) ⟨s, o, rem⟩ =
      ⟨(emitAll K fmt (s, o) (completeRecords (rem ++ chunks.flatten))).1,
       (emitAll K fmt (s, o) (completeRecords (rem ++ chunks.flatten))).2,
       remAfter (rem ++ chunks.flatten)⟩ := by
  induction chunks generalizing s o rem with
  | nil =>
    simp [completeRecords_eq_nil hrem, remAfter_eq_self hrem, emitAll]
  | cons c cs ih =>
    simp only [List.foldl_cons, handleChunk, List.flatten_cons]
    rw [ih _ _ _ (by rw [remAfter_length]; omega)]
    rw [← List.append_assoc rem c cs.flatten, completeRecords_append (rem ++ c) cs.flatten,
      remAfter_append (rem ++ c) cs.flatten]
    rw [emitAll_append]

/-- A builder run is determined by the whole log: seen keys and output lines
are the key/line images of the first-per-key records, and the remainder is
the log's tail. -/
theorem runChunks_eq (K : Nat) (fmt : List Nat → String) (chunks : List (List Nat)) :
    runChunks K fmt chunks =
      ⟨(dedupByKey K [] (completeRecords chunks.flatten)).map (keyOf K),
       (dedupByKey K [] (completeRecords chunks.flatten)).map fmt,
       remAfter chunks.flatten⟩ := by
  unfold runChunks initState
  rw [foldl_handleChunk K fmt chunks [] [] [] (by simp)]
  rw [emitAll_eq_dedup]
  simp
end ScanPipeline
namespace ScanPipeline
theorem dedupByKey_length_le (K : Nat) (recs : List (List Nat)) :
    ∀ acc : List String, (dedupByKey K acc recs).length ≤ recs.length := by
  induction recs with
  | nil => intro acc; simp [dedupByKey]
  | cons r rs ih =>
    intro acc
    by_cases h : keyOf K r ∈ acc
    · simp only [dedupByKey, if_pos h, List.length_cons]
      exact Nat.le_succ_of_le (ih acc)
    · simp only [dedupByKey, if_neg h, List.length_cons]
      exact Nat.succ_le_succ (ih (acc ++ [keyOf K r]))

theorem mem_dedupByKey_keys (K : Nat) (recs : List (List Nat)) :
    ∀ (acc : List String) (k : String),
      (k ∈ (dedupByKey K acc recs).map (keyOf K)) ↔
        k ∈ recs.map (keyOf K) ∧ k ∉ acc := by
  induction recs with
  | nil => intro acc k; simp [dedupByKey]
  | cons r rs ih =>
    intro acc k
    by_cases h : keyOf K r ∈ acc
    · simp only [dedupByKey, if_pos h, List.map_cons, List.mem_cons]
      rw [ih acc k]
      constructor
      · rintro ⟨hm, hn⟩; exact ⟨Or.inr hm, hn⟩
      · rintro ⟨hm | hm, hn⟩
        · exact absurd (hm ▸ h) hn
        · exact ⟨hm, hn⟩
    · simp only [dedupByKey, if_neg h, List.map_cons, List.mem_cons]
      rw [ih (acc ++ [keyOf K r]) k]
      simp only [List.mem_append, List.mem_singleton]
      constructor
      · rintro (rfl | ⟨hm, hn⟩)
        · exact ⟨Or.inl rfl, h⟩
        · exact ⟨Or.inr hm, fun hk => hn (Or.inl hk)⟩
      · rintro ⟨hm | hm, hn⟩
        · exact Or.inl hm
        · by_cases hk : k = keyOf K r
          · exact Or.inl hk
          · exact Or.inr ⟨hm, by rintro (hx | hx); exact hn hx; exact hk hx⟩

theorem dedupByKey_keys_nodup (K : Nat) (recs : List (List Nat)) :
    ∀ acc : List String, ((dedupByKey K acc recs).map (keyOf K)).Nodup := by
  induction recs with
  | nil => intro acc; simp [dedupByKey]
  | cons r rs ih =>
    intro acc
    by_cases h : keyOf K r ∈ acc
    · simp only [dedupByKey, if_pos h]
      exact ih acc
    · simp only [dedupByKey, if_neg h, List.map_cons, List.nodup_cons]
      refine ⟨fun hm => ?_, ih (acc ++ [keyOf K r])⟩
      have := (mem_dedupByKey_keys K rs (acc ++ [keyOf K r]) (keyOf K r)).1 hm
      exact this.2 (by simp)
end ScanPipeline
namespace ScanPipeline
/-- Deduplication keeps first occurrences in order: if `k1` first appears
before `k2` in the key sequence, its (unique) occurrence among the dedup keys
also comes first. -/
theorem dedupByKey_order (K : Nat) (recs : List (List Nat)) :
    ∀ (acc : List String) (k1 k2 : String),
      k1 ∈ (dedupByKey K acc recs).map (keyOf K) →
      k2 ∈ (dedupByKey K acc recs).map (keyOf K) →
      firstIdx k1 (recs.map (keyOf K)) < firstIdx k2 (recs.map (keyOf K)) →
      firstIdx k1 ((dedupByKey K acc recs).map (keyOf K)) <
        firstIdx k2 ((dedupByKey K acc recs).map (keyOf K)) := by
  induction recs with
  | nil =>
    intro acc k1 k2 h1 h2 hlt
    simp [dedupByKey] at h1
  | cons r rs ih =>
    intro acc k1 k2 h1 h2 hlt
    have hne : k1 ≠ k2 := by rintro rfl; omega
    by_cases h : keyOf K r ∈ acc
    · simp only [dedupByKey, if_pos h] at h1 h2 ⊢
      have m1 := (mem_dedupByKey_keys K rs acc k1).1 h1
      have m2 := (mem_dedupByKey_keys K rs acc k2).1 h2
      have n1 : keyOf K r ≠ k1 := fun hx => m1.2 (hx ▸ h)
      have n2 : keyOf K r ≠ k2 := fun hx => m2.2 (hx ▸ h)
      simp only [List.map_cons, firstIdx, if_neg n1, if_neg n2] at hlt
      exact ih acc k1 k2 h1 h2 (by omega)
    · simp only [dedupByKey, if_neg h, List.map_cons] at h1 h2 ⊢
      by_cases hk1 : keyOf K r = k1
      · have hk2 : keyOf K r ≠ k2 := fun hx => hne (hk1 ▸ hx ▸ rfl)
        simp only [firstIdx, if_pos hk1, if_neg hk2]
        omega
      · by_cases hk2 : keyOf K r = k2
        · simp only [List.map_cons, firstIdx, if_pos hk2, if_neg hk1] at hlt
          omega
        · have h1' : k1 ∈ (dedupByKey K (acc ++ [keyOf K r]) rs).map (keyOf K) := by
            rcases List.mem_cons.1 h1 with hx | hx
            · exact absurd hx.symm hk1
            · exact hx
          have h2' : k2 ∈ (dedupByKey K (acc ++ [keyOf K r]) rs).map (keyOf K) := by
            rcases List.mem_cons.1 h2 with hx | hx
            · exact absurd hx.symm hk2
            · exact hx
          simp only [List.map_cons, firstIdx, if_neg hk1, if_neg hk2] at hlt
          simp only [firstIdx, if_neg hk1, if_neg hk2]
          have := ih (acc ++ [keyOf K r]) k1 k2 h1' h2' (by omega)
          omega
end ScanPipeline

namespace ScanPipeline

/-- C1: for a result log of length `N*6` delivered as any sequence of
nonempty chunks (sizes may be below 6 or not multiples of 6), the builders'
chunked record reader emits exactly `N` records, equal as a sequence to the
records of the whole log processed as a single chunk; the `r`-th record is
the aligned grid slice `log[6r .. 6r+6)`, so records never overlap nor sit
off the 6-byte grid; consequently both target-list builders write the same
lines as on a single-chunk delivery. -/
theorem framing_chunk_invariance (log : List Nat) (N : Nat) (hlen : log.length = 6 * N)
    (chunks : List (List Nat)) (hjoin : chunks.flatten = log)
    (_hne : ∀ c ∈ chunks, c ≠ []) :
    recordsOfChunks chunks = completeRecords log ∧
    (recordsOfChunks chunks).length = N ∧
    (∀ r : Nat, r < N → (recordsOfChunks chunks).getD r [] = (log.drop (6 * r)).take 6) ∧
    buildInclude24sLines chunks = buildInclude24sLines [log] ∧
    buildIncludeIpsLines chunks = buildIncludeIpsLines [log] := by
  subst hjoin
  refine ⟨recordsOfChunks_eq chunks, ?_, ?_, ?_, ?_⟩
  · rw [recordsOfChunks_eq, completeRecords_length, hlen]
    omega
  · intro r hr
    rw [recordsOfChunks_eq]
    exact completeRecords_getD r _ (by omega)
  · simp [buildInclude24sLines, runChunks_eq]
  · simp [buildIncludeIpsLines, runChunks_eq]

/-- Witness for C1: a 12-byte (2-record) log split into ragged chunks of
sizes 2, 7 and 3. -/
theorem framing_chunk_invariance_witness :
    recordsOfChunks [[1,2],[3,4,5,6,7,8,9],[10,11,12]] =
        completeRecords [1,2,3,4,5,6,7,8,9,10,11,12] ∧
    (recordsOfChunks [[1,2],[3,4,5,6,7,8,9],[10,11,12]]).length = 2 ∧
    (recordsOfChunks [[1,2],[3,4,5,6,7,8,9],[10,11,12]]).getD 1 [] =
        (([1,2,3,4,5,6,7,8,9,10,11,12] : List Nat).drop (6 * 1)).take 6 ∧
    buildInclude24sLines [[1,2],[3,4,5,6,7,8,9],[10,11,12]] =
        buildInclude24sLines [[1,2,3,4,5,6,7,8,9,10,11,12]] ∧
    buildIncludeIpsLines [[1,2],[3,4,5,6,7,8,9],[10,11,12]] =
        buildIncludeIpsLines [[1,2,3,4,5,6,7,8,9,10,11,12]] := by
  obtain ⟨a, b, c, d, e⟩ :=
    framing_chunk_invariance [1,2,3,4,5,6,7,8,9,10,11,12] 2 (by decide)
      [[1,2],[3,4,5,6,7,8,9],[10,11,12]] (by decide) (by decide)
  exact ⟨a, b, c 1 (by decide), d, e⟩

/-- C2: for any result log, however chunked, each builder writes at most one
line per complete 6-byte record, the seen keys are pairwise distinct (no two
lines share a projected key), and lines and seen keys are in bijection
(one line per first-seen key). -/
theorem dedup_no_duplicate_keys (log : List Nat) (chunks : List (List Nat))
    (hjoin : chunks.flatten = log) :
    (completeRecords log).length = log.length / 6 ∧
    (buildInclude24sLines chunks).length ≤ (completeRecords log).length ∧
    (runChunks 3 formatLine24 chunks).seen.Nodup ∧
    (buildInclude24sLines chunks).length = (runChunks 3 formatLine24 chunks).seen.length ∧
    (buildIncludeIpsLines chunks).length ≤ (completeRecords log).length ∧
    (runChunks 4 formatLineIp chunks).seen.Nodup ∧
    (buildIncludeIpsLines chunks).length = (runChunks 4 formatLineIp chunks).seen.length := by
  subst hjoin
  simp only [buildInclude24sLines, buildIncludeIpsLines, runChunks_eq, List.length_map]
  refine ⟨completeRecords_length _, ?_, ?_, by simp, ?_, ?_, by simp⟩
  · exact dedupByKey_length_le 3 _ []
  · exact dedupByKey_keys_nodup 3 _ []
  · exact dedupByKey_length_le 4 _ []
  · exact dedupByKey_keys_nodup 4 _ []

/-- Witness for C2: a 3-record log with a duplicate /24, delivered in two
chunks. -/
theorem dedup_no_duplicate_keys_witness :
    (completeRecords [10,0,0,1,0,1, 10,0,0,2,0,1, 10,1,0,1,0,1]).length = 18 / 6 ∧
    (buildInclude24sLines [[10,0,0,1,0,1,10],[0,0,2,0,1,10,1,0,1,0,1]]).length ≤
      (completeRecords [10,0,0,1,0,1, 10,0,0,2,0,1, 10,1,0,1,0,1]).length ∧
    (runChunks 3 formatLine24 [[10,0,0,1,0,1,10],[0,0,2,0,1,10,1,0,1,0,1]]).seen.Nodup ∧
    (buildInclude24sLines [[10,0,0,1,0,1,10],[0,0,2,0,1,10,1,0,1,0,1]]).length =
      (runChunks 3 formatLine24 [[10,0,0,1,0,1,10],[0,0,2,0,1,10,1,0,1,0,1]]).seen.length ∧
    (buildIncludeIpsLines [[10,0,0,1,0,1,10],[0,0,2,0,1,10,1,0,1,0,1]]).length ≤
      (completeRecords [10,0,0,1,0,1, 10,0,0,2,0,1, 10,1,0,1,0,1]).length ∧
    (runChunks 4 formatLineIp [[10,0,0,1,0,1,10],[0,0,2,0,1,10,1,0,1,0,1]]).seen.Nodup ∧
    (buildIncludeIpsLines [[10,0,0,1,0,1,10],[0,0,2,0,1,10,1,0,1,0,1]]).length =
      (runChunks 4 formatLineIp [[10,0,0,1,0,1,10],[0,0,2,0,1,10,1,0,1,0,1]]).seen.length := by
  have hl : ([10,0,0,1,0,1, 10,0,0,2,0,1, 10,1,0,1,0,1] : List Nat).length = 18 := by decide
  have h := dedup_no_duplicate_keys [10,0,0,1,0,1, 10,0,0,2,0,1, 10,1,0,1,0,1]
    [[10,0,0,1,0,1,10],[0,0,2,0,1,10,1,0,1,0,1]] (by decide)
  rw [hl] at h
  exact h

end ScanPipeline

namespace ScanPipeline

/-- C3: line order equals first-appearance order of the unique keys. The
builder state satisfies: seen keys and output lines are the key/line images
of the same first-per-key record list (so the i-th line is the line of the
i-th seen key), and whenever key `k1` first occurs before key `k2` among the
log's complete records, `k1`'s position among the seen keys — hence its
line's position — is before `k2`'s. -/
theorem lines_in_first_seen_order (log : List Nat) (chunks : List (List Nat))
    (hjoin : chunks.flatten = log) (k1 k2 : String) :
    ((runChunks 3 formatLine24 chunks).seen =
        (dedupByKey 3 [] (completeRecords log)).map (keyOf 3) ∧
      (runChunks 3 formatLine24 chunks).out =
        (dedupByKey 3 [] (completeRecords log)).map formatLine24 ∧
      (k1 ∈ (completeRecords log).map (keyOf 3) →
       k2 ∈ (completeRecords log).map (keyOf 3) →
       firstIdx k1 ((completeRecords log).map (keyOf 3)) <
         firstIdx k2 ((completeRecords log).map (keyOf 3)) →
       firstIdx k1 (runChunks 3 formatLine24 chunks).seen <
         firstIdx k2 (runChunks 3 formatLine24 chunks).seen)) ∧
    ((runChunks 4 formatLineIp chunks).seen =
        (dedupByKey 4 [] (completeRecords log)).map (keyOf 4) ∧
      (runChunks 4 formatLineIp chunks).out =
        (dedupByKey 4 [] (completeRecords log)).map formatLineIp ∧
      (k1 ∈ (completeRecords log).map (keyOf 4) →
       k2 ∈ (completeRecords log).map (keyOf 4) →
       firstIdx k1 ((completeRecords log).map (keyOf 4)) <
         firstIdx k2 ((completeRecords log).map (keyOf 4)) →
       firstIdx k1 (runChunks 4 formatLineIp chunks).seen <
         firstIdx k2 (runChunks 4 formatLineIp chunks).seen)) := by
  subst hjoin
  rw [runChunks_eq, runChunks_eq]
  refine ⟨⟨rfl, rfl, ?_⟩, ⟨rfl, rfl, ?_⟩⟩
  · intro h1 h2 hlt
    exact dedupByKey_order 3 _ [] k1 k2
      ((mem_dedupByKey_keys 3 _ [] k1).2 ⟨h1, by simp⟩)
      ((mem_dedupByKey_keys 3 _ [] k2).2 ⟨h2, by simp⟩) hlt
  · intro h1 h2 hlt
    exact dedupByKey_order 4 _ [] k1 k2
      ((mem_dedupByKey_keys 4 _ [] k1).2 ⟨h1, by simp⟩)
      ((mem_dedupByKey_keys 4 _ [] k2).2 ⟨h2, by simp⟩) hlt

/-- Witness for C3: keys of 10.0.0.x appear before 10.1.0.1 in a 3-record
log delivered in ragged chunks; the subnet line of 10.0.0.0/24 precedes that
of 10.1.0.0/24. -/
theorem lines_in_first_seen_order_witness :
    firstIdx (keyOf 3 [10,0,0,1,0,1])
        (runChunks 3 formatLine24 [[10,0,0,1,0,1,10],[0,0,2,0,1,10,1,0,1,0,1]]).seen <
      firstIdx (keyOf 3 [10,1,0,1,0,1])
        (runChunks 3 formatLine24 [[10,0,0,1,0,1,10],[0,0,2,0,1,10,1,0,1,0,1]]).seen ∧
    firstIdx (keyOf 4 [10,0,0,2,0,1])
        (runChunks 4 formatLineIp [[10,0,0,1,0,1,10],[0,0,2,0,1,10,1,0,1,0,1]]).seen <
      firstIdx (keyOf 4 [10,1,0,1,0,1])
        (runChunks 4 formatLineIp [[10,0,0,1,0,1,10],[0,0,2,0,1,10,1,0,1,0,1]]).seen := by
  have h24 := (lines_in_first_seen_order [10,0,0,1,0,1, 10,0,0,2,0,1, 10,1,0,1,0,1]
    [[10,0,0,1,0,1,10],[0,0,2,0,1,10,1,0,1,0,1]] (by decide)
    (keyOf 3 [10,0,0,1,0,1]) (keyOf 3 [10,1,0,1,0,1])).1.2.2
    (by decide) (by decide) (by decide)
  have hIp := (lines_in_first_seen_order [10,0,0,1,0,1, 10,0,0,2,0,1, 10,1,0,1,0,1]
    [[10,0,0,1,0,1,10],[0,0,2,0,1,10,1,0,1,0,1]] (by decide)
    (keyOf 4 [10,0,0,2,0,1]) (keyOf 4 [10,1,0,1,0,1])).2.2.2
    (by decide) (by decide) (by decide)
  exact ⟨h24, hIp⟩

/-- C4: a target-list build is a pure function of the result log: whatever
the output file held before (the write stream truncates) and however the
read stream chunks the log, the produced file content is identical — in
particular an immediate rebuild on the unmodified log reproduces the first
output byte for byte. -/
theorem rebuild_byte_identical (log : List Nat) (p1 p2 : String)
    (c1 c2 : List (List Nat)) (h1 : c1.flatten = log) (h2 : c2.flatten = log) :
    buildInclude24sFile p2 c2 = buildInclude24sFile p1 c1 ∧
    buildInclude24sFile (buildInclude24sFile p1 c1) c2 = buildInclude24sFile p1 c1 ∧
    buildIncludeIpsFile p2 c2 = buildIncludeIpsFile p1 c1 ∧
    buildIncludeIpsFile (buildIncludeIpsFile p1 c1) c2 = buildIncludeIpsFile p1 c1 := by
  have l24 : buildInclude24sLines c2 = buildInclude24sLines c1 := by
    simp [buildInclude24sLines, runChunks_eq, h1, h2]
  have lIp : buildIncludeIpsLines c2 = buildIncludeIpsLines c1 := by
    simp [buildIncludeIpsLines, runChunks_eq, h1, h2]
  simp [buildInclude24sFile, buildIncludeIpsFile, writeStreamContent, l24, lIp]

/-- Witness for C4: two rebuilds over different chunkings and different prior
file contents coincide. -/
theorem rebuild_byte_identical_witness :
    buildInclude24sFile "stale" [[10,0,0,1,0,1],[10,0,0,2,0,1]] =
      buildInclude24sFile "" [[10,0,0,1,0,1,10,0,0,2,0,1]] ∧
    buildInclude24sFile (buildInclude24sFile "" [[10,0,0,1,0,1,10,0,0,2,0,1]])
        [[10,0,0,1,0,1],[10,0,0,2,0,1]] =
      buildInclude24sFile "" [[10,0,0,1,0,1,10,0,0,2,0,1]] ∧
    buildIncludeIpsFile "stale" [[10,0,0,1,0,1],[10,0,0,2,0,1]] =
      buildIncludeIpsFile "" [[10,0,0,1,0,1,10,0,0,2,0,1]] ∧
    buildIncludeIpsFile (buildIncludeIpsFile "" [[10,0,0,1,0,1,10,0,0,2,0,1]])
        [[10,0,0,1,0,1],[10,0,0,2,0,1]] =
      buildIncludeIpsFile "" [[10,0,0,1,0,1,10,0,0,2,0,1]] :=
  rebuild_byte_identical [10,0,0,1,0,1,10,0,0,2,0,1] "" "stale"
    [[10,0,0,1,0,1,10,0,0,2,0,1]] [[10,0,0,1,0,1],[10,0,0,2,0,1]] (by decide) (by decide)

end ScanPipeline
namespace ScanPipeline

/-- C5: projection/formatting correctness. On the single record
`{192,168,1,17,99,99}` the subnet-mode builder emits exactly the line
`192.168.1.0/24` and the host-mode builder exactly `192.168.1.17` (each
newline-terminated); in general the subnet line is formed from the first
three bytes of a record as `a.b.c.0/24` and the host line from the first
four as `a.b.c.d`. -/
theorem projection_formats (a b c d e f : Nat) :
    buildInclude24sLines [[192,168,1,17,99,99]] = ["192.168.1.0/24\n"] ∧
    buildIncludeIpsLines [[192,168,1,17,99,99]] = ["192.168.1.17\n"] ∧
    formatLine24 [a, b, c, d, e, f] =
      toString a ++ "." ++ toString b ++ "." ++ toString c ++ ".0/24\n" ∧
    formatLineIp [a, b, c, d, e, f] =
      toString a ++ "." ++ toString b ++ "." ++ toString c ++ "." ++ toString d ++ "\n" := by
  refine ⟨by decide, by decide, ?_, ?_⟩ <;> simp [formatLine24, formatLineIp]

end ScanPipeline
namespace ScanPipeline

theorem completeRecords_take (log : List Nat) :
    completeRecords log = completeRecords (log.take (log.length / 6 * 6)) := by
  have hsplit := List.take_append_drop (log.length / 6 * 6) log
  have ht : (log.take (log.length / 6 * 6)).length = log.length / 6 * 6 := by
    simp
    omega
  have hrt : remAfter (log.take (log.length / 6 * 6)) = [] := by
    unfold remAfter
    rw [ht]
    apply List.drop_eq_nil_of_le
    rw [ht]
    omega
  have hd : (log.drop (log.length / 6 * 6)).length < 6 := by
    simp
    omega
  conv_lhs => rw [← hsplit]
  rw [completeRecords_append, hrt, List.nil_append, completeRecords_eq_nil hd,
    List.append_nil]

/-- C6: a log whose length is not a multiple of 6 still builds successfully:
the lines written are those of the log truncated to its complete records (the
trailing `len mod 6` bytes contribute nothing), the final buffered remainder
is exactly that trailing partial record (length `len mod 6`, between 1 and 5
here), and after every prefix of the chunk deliveries the buffered remainder
has length at most 5. -/
theorem partial_tail_discarded (log : List Nat) (hlen : log.length % 6 ≠ 0)
    (chunks : List (List Nat)) (hjoin : chunks.flatten = log) :
    buildInclude24sLines chunks = buildInclude24sLines [log.take (log.length / 6 * 6)] ∧
    buildIncludeIpsLines chunks = buildIncludeIpsLines [log.take (log.length / 6 * 6)] ∧
    (runChunks 3 formatLine24 chunks).remainder = log.drop (log.length / 6 * 6) ∧
    (runChunks 3 formatLine24 chunks).remainder.length = log.length % 6 ∧
    1 ≤ log.length % 6 ∧ log.length % 6 ≤ 5 ∧
    ∀ k : Nat,
      ((chunks.take k).foldl (handleChunk 3 formatLine24) initState).remainder.length ≤ 5 := by
  subst hjoin
  refine ⟨?_, ?_, ?_, ?_, by omega, by omega, ?_⟩
  · simp only [buildInclude24sLines, runChunks_eq, List.flatten_cons, List.flatten_nil,
      List.append_nil]
    rw [← completeRecords_take]
  · simp only [buildIncludeIpsLines, runChunks_eq, List.flatten_cons, List.flatten_nil,
      List.append_nil]
    rw [← completeRecords_take]
  · rw [runChunks_eq]
    rfl
  · rw [runChunks_eq]
    exact remAfter_length _
  · intro k
    have hk : (chunks.take k).foldl (handleChunk 3 formatLine24) initState =
        runChunks 3 formatLine24 (chunks.take k) := rfl
    rw [hk, runChunks_eq]
    simp only [remAfter_length]
    omega

/-- Witness for C6: an 8-byte log (one complete record and a 2-byte tail)
delivered in chunks of sizes 3 and 5. -/
theorem partial_tail_discarded_witness :
    buildInclude24sLines [[1,2,3],[4,5,6,7,8]] =
      buildInclude24sLines [(([1,2,3,4,5,6,7,8] : List Nat)).take (8 / 6 * 6)] ∧
    buildIncludeIpsLines [[1,2,3],[4,5,6,7,8]] =
      buildIncludeIpsLines [(([1,2,3,4,5,6,7,8] : List Nat)).take (8 / 6 * 6)] ∧
    (runChunks 3 formatLine24 [[1,2,3],[4,5,6,7,8]]).remainder =
      (([1,2,3,4,5,6,7,8] : List Nat)).drop (8 / 6 * 6) ∧
    (runChunks 3 formatLine24 [[1,2,3],[4,5,6,7,8]]).remainder.length = 8 % 6 ∧
    1 ≤ 8 % 6 ∧ 8 % 6 ≤ 5 ∧
    (([[1,2,3],[4,5,6,7,8]].take 1).foldl
        (handleChunk 3 formatLine24) initState).remainder.length ≤ 5 := by
  have hl : ([1,2,3,4,5,6,7,8] : List Nat).length = 8 := by decide
  have h := partial_tail_discarded [1,2,3,4,5,6,7,8] (by decide)
    [[1,2,3],[4,5,6,7,8]] (by decide)
  rw [hl] at h
  exact ⟨h.1, h.2.1, h.2.2.1, h.2.2.2.1, h.2.2.2.2.1, h.2.2.2.2.2.1,
    h.2.2.2.2.2.2 1⟩

end ScanPipeline
namespace ScanPipeline

theorem builderOutcome_data (K : Nat) (fmt : List Nat → String) (chunks : List (List Nat)) :
    ∀ (st : BuildState) (evs : List StreamEvent),
      builderOutcome K fmt st (chunks.map .data ++ evs) =
        builderOutcome K fmt (chunks.foldl (handleChunk K fmt) st) evs := by
  induction chunks with
  | nil => intro st evs; simp
  | cons c cs ih =>
    intro st evs
    simp only [List.map_cons, List.cons_append, builderOutcome, List.foldl_cons]
    exact ih _ _

/-- C7 (amended): after any number of data chunks, an I/O error on the source
(read stream) rejects the builder promise with that error, while an I/O error
on the destination (write stream) hits an event with no installed handler and
becomes an uncaught exception (process crash) — the promise does not reject.
In both cases the build never resolves, so the caller never proceeds to the
next scan stage. -/
theorem io_error_aborts (K : Nat) (fmt : List Nat → String)
    (chunks : List (List Nat)) (e : String) (rest : List StreamEvent) :
    builderOutcome K fmt initState (chunks.map .data ++ .srcError e :: rest) =
        some (.rejected e) ∧
    builderOutcome K fmt initState (chunks.map .data ++ .dstError e :: rest) =
        some (.crashed e) ∧
    isResolved (builderOutcome K fmt initState
        (chunks.map .data ++ .srcError e :: rest)) = false ∧
    isResolved (builderOutcome K fmt initState
        (chunks.map .data ++ .dstError e :: rest)) = false := by
  rw [builderOutcome_data, builderOutcome_data]
  simp [builderOutcome, isResolved]

/-- C7 counterexample: a destination (write-stream) I/O error does not reject
the promise as the claim states — both builders install no handler on the
write stream, so the error is an unhandled event (crash), not a rejection. -/
theorem io_error_counterexample :
    isRejected (builderOutcome 3 formatLine24 initState [.dstError "EACCES"]) = false ∧
    builderOutcome 3 formatLine24 initState [.dstError "EACCES"] =
      some (.crashed "EACCES") ∧
    isRejected (builderOutcome 4 formatLineIp initState [.dstError "EACCES"]) = false ∧
    builderOutcome 4 formatLineIp initState [.dstError "EACCES"] =
      some (.crashed "EACCES") := by
  refine ⟨rfl, rfl, rfl, rfl⟩

/-- C10: when the result-log file does not exist, both builders fail rather
than resolving with an empty list: `buildInclude24s` rejects because the
synchronous `fs.statSync` inside the promise executor throws (the rejection
happens whatever the stream events are), and `buildIncludeIps` rejects via
the read stream's `error` event. -/
theorem missing_log_rejects (size : Nat) (chunks : List (List Nat)) :
    buildInclude24sRun false size chunks = some (.rejected "ENOENT") ∧
    buildIncludeIpsRun false chunks = some (.rejected "ENOENT") ∧
    isResolved (buildInclude24sRun false size chunks) = false ∧
    isResolved (buildIncludeIpsRun false chunks) = false ∧
    ∀ evs : List StreamEvent,
      promiseExec (do
        let _ ← statSyncSize false size
        pure (builderOutcome 3 formatLine24 initState evs)) = some (.rejected "ENOENT") := by
  refine ⟨rfl, rfl, rfl, rfl, fun evs => rfl⟩

end ScanPipeline
namespace ScanPipeline

theorem runActs_mem (env : Action → Except String Unit) :
    ∀ (l : List Action) (a : Action), a ∈ (runActs env l).1 → a ∈ l := by
  intro l
  induction l with
  | nil => intro a ha; simp [runActs] at ha
  | cons b rest ih =>
    intro a ha
    unfold runActs at ha
    cases hb : env b with
    | ok u =>
      rw [hb] at ha
      simp only [List.mem_cons] at ha ⊢
      rcases ha with rfl | ha
      · exact Or.inl rfl
      · exact Or.inr (ih a ha)
    | error e =>
      rw [hb] at ha
      simp only [List.mem_singleton] at ha
      simp [ha]

theorem runActs_take_eq (env : Action → Except String Unit) :
    ∀ l : List Action, (runActs env l).1 = l.take (runActs env l).1.length := by
  intro l
  induction l with
  | nil => simp [runActs]
  | cons b rest ih =>
    unfold runActs
    cases hb : env b with
    | ok u =>
      simp only [List.length_cons, List.take_succ_cons, List.cons.injEq]
      exact ⟨trivial, ih⟩
    | error e => simp

theorem runActs_ok_all (env : Action → Except String Unit) :
    ∀ l : List Action, (∀ a ∈ l, env a = .ok ()) → runActs env l = (l, .ok ()) := by
  intro l
  induction l with
  | nil => intro h; simp [runActs]
  | cons b rest ih =>
    intro h
    unfold runActs
    rw [h b (List.mem_cons_self b rest)]
    rw [ih fun a ha => h a (List.mem_cons_of_mem b ha)]

theorem mem_scanActs (cfg : Config) (a : Action) :
    a ∈ scanActs cfg ↔
      (cfg.scanPort = true ∧ a ∈ scanDefaultPortActs) ∨
        (cfg.scan24s = true ∧ a ∈ scanNearPortsActs) ∨
          (cfg.scanAllPorts = true ∧ a ∈ scanAllPortsActs) := by
  unfold scanActs
  split_ifs with h1 h2 h3 <;> simp_all

theorem mainRun_mem (cfg : Config) (env : Action → Except String Unit) (a : Action)
    (ha : a ∈ (mainRun cfg env).1) :
    a ∈ scanActs cfg ∨ a = Action.gitPushAct ∨ a = Action.exitProc := by
  unfold mainRun at ha
  rcases hq : runActs env (scanActs cfg) with ⟨tr, r⟩
  rw [hq] at ha
  have htr : ∀ x ∈ tr, x ∈ scanActs cfg := by
    intro x hx
    have := runActs_mem env (scanActs cfg) x
    rw [hq] at this
    exact this hx
  cases r with
  | error e =>
    simp only at ha
    exact Or.inl (htr a ha)
  | ok u =>
    simp only [List.mem_append, List.mem_singleton] at ha
    rcases ha with ha | rfl
    · by_cases hg : cfg.gitPush
      · rw [if_pos hg] at ha
        simp only [List.mem_append, List.mem_singleton] at ha
        rcases ha with ha | rfl
        · exact Or.inl (htr a ha)
        · exact Or.inr (Or.inl rfl)
      · rw [if_neg hg] at ha
        exact Or.inl (htr a ha)
    · exact Or.inr (Or.inr rfl)

end ScanPipeline
namespace ScanPipeline

/-- C8: stage skipping. With `scan24s = false` the pipeline makes no
`buildInclude24s` call and no Stage 2 `masscan`/`minecraftCheck` call; with
`scanAllPorts = false` it makes no `buildIncludeIps` call and no Stage 3
collaborator call — under every environment, i.e. whatever the collaborators
do. -/
theorem stage_skip (cfg : Config) (env : Action → Except String Unit) :
    (cfg.scan24s = false →
      Action.buildList24 ∉ (mainRun cfg env).1 ∧
      Action.masscanPass 2 ∉ (mainRun cfg env).1 ∧
      Action.minecraftCheckPass 2 ∉ (mainRun cfg env).1) ∧
    (cfg.scanAllPorts = false →
      Action.buildListIps ∉ (mainRun cfg env).1 ∧
      Action.masscanPass 3 ∉ (mainRun cfg env).1 ∧
      Action.minecraftCheckPass 3 ∉ (mainRun cfg env).1) := by
  constructor
  · intro h
    refine ⟨fun hmem => ?_, fun hmem => ?_, fun hmem => ?_⟩ <;>
      · have hc := mainRun_mem cfg env _ hmem
        rw [mem_scanActs] at hc
        simp_all [scanDefaultPortActs, scanNearPortsActs, scanAllPortsActs]
  · intro h
    refine ⟨fun hmem => ?_, fun hmem => ?_, fun hmem => ?_⟩ <;>
      · have hc := mainRun_mem cfg env _ hmem
        rw [mem_scanActs] at hc
        simp_all [scanDefaultPortActs, scanNearPortsActs, scanAllPortsActs]

/-- Witness for C8: configuration with Stage 2 and Stage 3 disabled, all
collaborators succeeding. -/
theorem stage_skip_witness :
    Action.buildList24 ∉
      (mainRun ⟨true, false, false, true⟩ (fun _ => .ok ())).1 ∧
    Action.masscanPass 2 ∉
      (mainRun ⟨true, false, false, true⟩ (fun _ => .ok ())).1 ∧
    Action.minecraftCheckPass 2 ∉
      (mainRun ⟨true, false, false, true⟩ (fun _ => .ok ())).1 ∧
    Action.buildListIps ∉
      (mainRun ⟨true, false, false, true⟩ (fun _ => .ok ())).1 ∧
    Action.masscanPass 3 ∉
      (mainRun ⟨true, false, false, true⟩ (fun _ => .ok ())).1 ∧
    Action.minecraftCheckPass 3 ∉
      (mainRun ⟨true, false, false, true⟩ (fun _ => .ok ())).1 := by
  obtain ⟨h1, h2⟩ := stage_skip ⟨true, false, false, true⟩ (fun _ => .ok ())
  obtain ⟨a, b, c⟩ := h1 rfl
  obtain ⟨d, e, f⟩ := h2 rfl
  exact ⟨a, b, c, d, e, f⟩

/-- C9: publish is best-effort, scan stages fail fast. When every enabled
scan-stage call succeeds, `main` completes — it reaches `process.exit`
(`Done`) and returns success whatever result the `pushToGit` body has, since
its `try/catch` swallows the error — and with push enabled the push is
attempted. When a scan-stage call fails, `main` rejects: the calls made form
a prefix of the enabled scan calls (nothing after the failure runs), and
neither the publish step nor `process.exit` is reached. -/
theorem mainRun_of_ok (cfg : Config) (env : Action → Except String Unit)
    (tr : List Action) (u : Unit) (h : runActs env (scanActs cfg) = (tr, .ok u)) :
    mainRun cfg env =
      ((if cfg.gitPush then tr ++ [Action.gitPushAct] else tr) ++ [Action.exitProc],
        .ok ()) := by
  unfold mainRun
  rw [h]

theorem mainRun_of_error (cfg : Config) (env : Action → Except String Unit)
    (tr : List Action) (e : String) (h : runActs env (scanActs cfg) = (tr, .error e)) :
    mainRun cfg env = (tr, .error e) := by
  unfold mainRun
  rw [h]

/-- C9: publish is best-effort, scan stages fail fast. When every enabled
scan-stage call succeeds, `main` completes — it reaches `process.exit`
(`Done`) and returns success whatever result the `pushToGit` body has, since
its `try/catch` swallows the error — and with push enabled the push is
attempted. When a scan-stage call fails, `main` rejects: the calls made form
a prefix of the enabled scan calls (nothing after the failure runs), and
neither the publish step nor `process.exit` is reached. -/
theorem publish_best_effort (cfg : Config) (env : Action → Except String Unit) :
    ((∀ a ∈ scanActs cfg, env a = .ok ()) →
      (mainRun cfg env).2 = .ok () ∧
      Action.exitProc ∈ (mainRun cfg env).1 ∧
      (cfg.gitPush = true → Action.gitPushAct ∈ (mainRun cfg env).1)) ∧
    (∀ e : String, (mainRun cfg env).2 = .error e →
      (mainRun cfg env).1 = (scanActs cfg).take (mainRun cfg env).1.length ∧
      Action.exitProc ∉ (mainRun cfg env).1 ∧
      Action.gitPushAct ∉ (mainRun cfg env).1) := by
  constructor
  · intro hok
    have hr := runActs_ok_all env (scanActs cfg) hok
    rw [mainRun_of_ok cfg env (scanActs cfg) () hr]
    exact ⟨rfl, by simp, fun hg => by simp [hg]⟩
  · intro e he
    rcases hq : runActs env (scanActs cfg) with ⟨tr, r⟩
    cases r with
    | ok u =>
      rw [mainRun_of_ok cfg env tr u hq] at he
      simp at he
    | error e2 =>
      rw [mainRun_of_error cfg env tr e2 hq] at he ⊢
      have htr := runActs_take_eq env (scanActs cfg)
      rw [hq] at htr
      refine ⟨htr, fun hmem => ?_, fun hmem => ?_⟩
      · have hc := runActs_mem env (scanActs cfg) Action.exitProc
          (by rw [hq]; exact hmem)
        rw [mem_scanActs] at hc
        rcases hc with ⟨_, hx⟩ | ⟨_, hx⟩ | ⟨_, hx⟩ <;> exact absurd hx (by decide)
      · have hc := runActs_mem env (scanActs cfg) Action.gitPushAct
          (by rw [hq]; exact hmem)
        rw [mem_scanActs] at hc
        rcases hc with ⟨_, hx⟩ | ⟨_, hx⟩ | ⟨_, hx⟩ <;> exact absurd hx (by decide)

/-- Witness for C9: all three stages enabled and succeeding, push enabled and
failing with an auth error; `main` still exits successfully after attempting
the push. -/
theorem publish_best_effort_witness :
    (mainRun ⟨true, true, true, true⟩
      (fun a => if a = Action.gitPushAct then .error "auth failed" else .ok ())).2 =
        .ok () ∧
    Action.exitProc ∈
      (mainRun ⟨true, true, true, true⟩
        (fun a => if a = Action.gitPushAct then .error "auth failed" else .ok ())).1 ∧
    Action.gitPushAct ∈
      (mainRun ⟨true, true, true, true⟩
        (fun a => if a = Action.gitPushAct then .error "auth failed" else .ok ())).1 := by
  obtain ⟨h1, h2, h3⟩ :=
    (publish_best_effort ⟨true, true, true, true⟩
      (fun a => if a = Action.gitPushAct then .error "auth failed" else .ok ())).1
      (by
        intro a ha
        have hne : a ≠ Action.gitPushAct := by
          intro hEq
          subst hEq
          exact absurd ha (by decide)
        simp [hne])
  exact ⟨h1, h2, h3 rfl⟩

end ScanPipeline
